import Mathlib

/-!
Verification of the cannalchemy entity-resolution and confidence engine.

Python strings are embedded as lists of Unicode codepoints (`PyStr := List Nat`)
where character-level operations matter; plain identifiers use `String`.
SQLite tables are embedded as Lean lists of row structures; `INSERT OR IGNORE`
becomes an explicit key-guarded append; `UPDATE` passes become list maps/folds.
Floating-point confidence arithmetic is modelled over `ℝ` with `Real.log`
standing for `math.log1p` composed with the shift.
-/

namespace Cannalchemy

/-- Python strings as lists of Unicode codepoints. -/
abbrev PyStr := List Nat

/-- ASCII lowercasing of a single codepoint, modelling `str.lower()` on the
ASCII range used by the data set. -/
def pyLowerChar (c : Nat) : Nat :=
  if 65 ≤ c ∧ c ≤ 90 then c + 32 else c

/-- Lowercasing, `str.lower()`. -/
def pyLower (s : PyStr) : PyStr := s.map pyLowerChar

/-- Whitespace test for `str.strip()` and the regex class `\s`
(space, tab, LF, VT, FF, CR). -/
def isPySpace (c : Nat) : Bool :=
  c = 32 || c = 9 || c = 10 || c = 11 || c = 12 || c = 13

/-- Stripping, `str.strip()`: drop whitespace from both ends. -/
def pyStrip (s : PyStr) : PyStr :=
  ((s.dropWhile isPySpace).reverse.dropWhile isPySpace).reverse

/-- The character class `[-_#'"()]` from `normalize_strain_name`. -/
def isDedupSpecial (c : Nat) : Bool :=
  c = 45 || c = 95 || c = 35 || c = 39 || c = 34 || c = 40 || c = 41

/-- Replace each maximal run of whitespace with a single space, modelling
the regex substitution of a whitespace run by one space.  The flag records
whether the previous character was part of a whitespace run. -/
def collapseAux : Bool → PyStr → PyStr
  | _, [] => []
  | prev, c :: cs =>
    if isPySpace c then
      if prev then collapseAux true cs else 32 :: collapseAux true cs
    else
      c :: collapseAux false cs

/-- Substitution of every whitespace run by a single space. -/
def collapseSpaces (s : PyStr) : PyStr := collapseAux false s

/-- The function `normalize_strain_name` from `cannalchemy/data/normalize.py`:
lowercase and strip, remove periods, replace `[-_#'"()]` by spaces,
collapse whitespace runs to one space and strip again. -/
def normalize_strain_name (s : PyStr) : PyStr :=
  let s1 := pyStrip (pyLower s)
  let s2 := s1.filter (fun c => c ≠ 46)
  let s3 := s2.map (fun c => if isDedupSpecial c then 32 else c)
  pyStrip (collapseSpaces s3)

/-- Characters are left unchanged by a second lowercasing pass. -/
theorem pyLowerChar_idem (c : Nat) : pyLowerChar (pyLowerChar c) = pyLowerChar c := by
  unfold pyLowerChar
  split_ifs with h1 h2 <;> first | rfl | omega

/-- Adjacent characters are never both whitespace. -/
def NoAdjSpace (t : PyStr) : Prop :=
  List.Chain' (fun a b => ¬(isPySpace a = true ∧ isPySpace b = true)) t

theorem mem_pyStrip {c : Nat} {s : PyStr} (h : c ∈ pyStrip s) : c ∈ s := by
  unfold pyStrip at h
  rw [List.mem_reverse] at h
  have h2 := (List.dropWhile_sublist _).mem h
  rw [List.mem_reverse] at h2
  exact (List.dropWhile_sublist _).mem h2

theorem mem_collapseAux {c : Nat} {s : PyStr} :
    ∀ {b : Bool}, c ∈ collapseAux b s → c = 32 ∨ c ∈ s := by
  induction s with
  | nil => intro b h; simp [collapseAux] at h
  | cons d ds ih =>
    intro b h
    unfold collapseAux at h
    split at h
    · split at h
      · rcases ih h with h' | h'
        · exact Or.inl h'
        · exact Or.inr (List.mem_cons_of_mem _ h')
      · rcases List.mem_cons.mp h with h' | h'
        · exact Or.inl h'
        · rcases ih h' with h'' | h''
          · exact Or.inl h''
          · exact Or.inr (List.mem_cons_of_mem _ h'')
    · rcases List.mem_cons.mp h with h' | h'
      · exact Or.inr (h' ▸ List.mem_cons_self _ _)
      · rcases ih h' with h'' | h''
        · exact Or.inl h''
        · exact Or.inr (List.mem_cons_of_mem _ h'')

/-- Every whitespace character surviving the collapse pass is a plain space. -/
theorem space_of_mem_collapseAux {c : Nat} {s : PyStr} :
    ∀ {b : Bool}, c ∈ collapseAux b s → isPySpace c = true → c = 32 := by
  induction s with
  | nil => intro b h; simp [collapseAux] at h
  | cons d ds ih =>
    intro b h hsp
    unfold collapseAux at h
    split at h
    · split at h
      · exact ih h hsp
      · rcases List.mem_cons.mp h with h' | h'
        · exact h'
        · exact ih h' hsp
    · rcases List.mem_cons.mp h with h' | h'
      · subst h'; simp_all
      · exact ih h' hsp

/-- After a whitespace run has just been emitted, the collapse output starts
with a non-whitespace character. -/
theorem head_collapseAux_true {s : PyStr} :
    ∀ {c : Nat}, (collapseAux true s).head? = some c → isPySpace c = false := by
  induction s with
  | nil => intro c h; simp [collapseAux] at h
  | cons d ds ih =>
    intro c h
    unfold collapseAux at h
    split at h
    · exact ih h
    · rename_i hd
      rw [List.head?_cons] at h
      injection h with h2
      subst h2
      exact Bool.eq_false_iff.mpr hd

theorem noAdjSpace_collapseAux (s : PyStr) : ∀ b, NoAdjSpace (collapseAux b s) := by
  induction s with
  | nil => intro b; simp [collapseAux, NoAdjSpace]
  | cons d ds ih =>
    intro b
    unfold collapseAux
    split
    · split
      · exact ih true
      · rw [NoAdjSpace, List.chain'_cons']
        refine ⟨fun x hx => ?_, ih true⟩
        intro hcon
        have := head_collapseAux_true hx
        rw [this] at hcon
        exact Bool.false_ne_true hcon.2
    · rename_i hd
      rw [NoAdjSpace, List.chain'_cons']
      refine ⟨fun x hx => ?_, ih false⟩
      intro hcon
      exact hd hcon.1

theorem head_dropWhile_space {s : PyStr} {c : Nat}
    (h : (s.dropWhile isPySpace).head? = some c) : isPySpace c = false := by
  have := List.head?_dropWhile_not isPySpace s
  rw [h] at this
  exact this

/-- Dropping with `dropWhile` is the identity when the head fails the predicate. -/
theorem dropWhile_eq_self_of_head {p : Nat → Bool} {s : PyStr}
    (h : ∀ c, s.head? = some c → p c = false) : s.dropWhile p = s := by
  cases s with
  | nil => rfl
  | cons d ds =>
    apply List.dropWhile_cons_of_neg
    rw [h d (by rw [List.head?_cons])]
    exact Bool.false_ne_true

theorem head_pyStrip_space {s : PyStr} {c : Nat}
    (h : (pyStrip s).head? = some c) : isPySpace c = false := by
  unfold pyStrip at h
  set a := s.dropWhile isPySpace with ha
  have hpre : (a.reverse.dropWhile isPySpace).reverse <+: a := by
    have hsu : a.reverse.dropWhile isPySpace <:+ a.reverse := List.dropWhile_suffix _
    simpa using List.reverse_prefix.mpr hsu
  obtain ⟨t, ht⟩ := hpre
  have : a.head? = some c := by
    rw [← ht, List.head?_append, h]
    rfl
  exact head_dropWhile_space this

theorem getLast_pyStrip_space {s : PyStr} {c : Nat}
    (h : (pyStrip s).getLast? = some c) : isPySpace c = false := by
  unfold pyStrip at h
  rw [List.getLast?_reverse] at h
  exact head_dropWhile_space h

theorem pyStrip_eq_self {s : PyStr}
    (hh : ∀ c, s.head? = some c → isPySpace c = false)
    (hl : ∀ c, s.getLast? = some c → isPySpace c = false) : pyStrip s = s := by
  unfold pyStrip
  rw [dropWhile_eq_self_of_head hh]
  rw [dropWhile_eq_self_of_head (fun c hc => hl c (by rwa [← List.head?_reverse]))]
  exact s.reverse_reverse

theorem collapseAux_true_eq_false {s : PyStr}
    (h : ∀ c, s.head? = some c → isPySpace c = false) :
    collapseAux true s = collapseAux false s := by
  cases s with
  | nil => rfl
  | cons d ds =>
    unfold collapseAux
    rw [h d (by rw [List.head?_cons])]
    simp

theorem collapseSpaces_eq_self {s : PyStr}
    (hsp : ∀ c ∈ s, isPySpace c = true → c = 32) (hadj : NoAdjSpace s) :
    collapseSpaces s = s := by
  unfold collapseSpaces
  induction s with
  | nil => rfl
  | cons d ds ih =>
    rw [NoAdjSpace, List.chain'_cons'] at hadj
    unfold collapseAux
    split
    · rename_i hd
      have hd32 : d = 32 := hsp d (List.mem_cons_self _ _) hd
      have hds : ∀ c, ds.head? = some c → isPySpace c = false := by
        intro c hc
        by_contra hcon
        exact hadj.1 c hc ⟨hd, Bool.not_eq_false _ |>.mp hcon⟩
      rw [if_neg (by simp), collapseAux_true_eq_false hds, hd32,
        ih (fun c hc h32 => hsp c (List.mem_cons_of_mem _ hc) h32) hadj.2]
    · rw [ih (fun c hc h32 => hsp c (List.mem_cons_of_mem _ hc) h32) hadj.2]

/-- Every character of a normalized name is fixed by lowercasing, is not a
period, is not one of the replaced special characters, and the only
whitespace it may be is a single plain space. -/
theorem normalize_chars {s : PyStr} {c : Nat} (h : c ∈ normalize_strain_name s) :
    pyLowerChar c = c ∧ c ≠ 46 ∧ isDedupSpecial c = false ∧
      (isPySpace c = true → c = 32) := by
  unfold normalize_strain_name at h
  have hcol := mem_pyStrip h
  have hsp : isPySpace c = true → c = 32 := space_of_mem_collapseAux hcol
  rcases mem_collapseAux hcol with h32 | hmem
  · subst h32
    exact ⟨by decide, by decide, by decide, fun _ => rfl⟩
  · rcases List.mem_map.mp hmem with ⟨d, hd, hdc⟩
    by_cases hspec : isDedupSpecial d = true
    · have hc32 : c = 32 := by rw [hspec] at hdc; simpa using hdc.symm
      subst hc32
      exact ⟨by decide, by decide, by decide, fun _ => rfl⟩
    · have hspec' : isDedupSpecial d = false := Bool.eq_false_iff.mpr hspec
      have hdcd : d = c := by rw [hspec'] at hdc; simpa using hdc
      subst hdcd
      have hd2 := List.mem_filter.mp hd
      have hne : d ≠ 46 := by simpa using hd2.2
      have hd3 := mem_pyStrip hd2.1
      rcases List.mem_map.mp hd3 with ⟨e, _, hec⟩
      subst hec
      exact ⟨pyLowerChar_idem e, hne, hspec', hsp⟩

/-- Stripping yields a contiguous piece of the original list. -/
theorem pyStrip_contiguous (s : PyStr) : pyStrip s <:+: s := by
  have h1 : pyStrip s <+: s.dropWhile isPySpace := by
    unfold pyStrip
    have hsu : (s.dropWhile isPySpace).reverse.dropWhile isPySpace <:+
        (s.dropWhile isPySpace).reverse := List.dropWhile_suffix _
    simpa using List.reverse_prefix.mpr hsu
  have h2 := List.IsPrefix.isInfix h1
  have h3 : List.dropWhile isPySpace s <:+: s :=
    List.IsSuffix.isInfix (List.dropWhile_suffix _)
  exact List.IsInfix.trans h2 h3

/-- C8 helper: a normalized name starts and ends with non-whitespace and has
no adjacent whitespace. -/
theorem normalize_shape (s : PyStr) :
    (∀ c, (normalize_strain_name s).head? = some c → isPySpace c = false) ∧
    (∀ c, (normalize_strain_name s).getLast? = some c → isPySpace c = false) ∧
    NoAdjSpace (normalize_strain_name s) := by
  unfold normalize_strain_name
  refine ⟨fun c hc => head_pyStrip_space hc, fun c hc => getLast_pyStrip_space hc, ?_⟩
  exact List.Chain'.infix (noAdjSpace_collapseAux _ false) (pyStrip_contiguous _)

/-- C8: `normalize_strain_name(normalize_strain_name(x)) == normalize_strain_name(x)`
for every string `x` — the deduplication name normalizer is idempotent. -/
theorem normalize_strain_name_idem (s : PyStr) :
    normalize_strain_name (normalize_strain_name s) = normalize_strain_name s := by
  obtain ⟨hh, hl, hadj⟩ := normalize_shape s
  have hlower : pyLower (normalize_strain_name s) = normalize_strain_name s := by
    unfold pyLower
    conv_rhs => rw [← List.map_id (normalize_strain_name s)]
    exact List.map_congr_left fun c hc => (normalize_chars hc).1
  have hstrip : pyStrip (normalize_strain_name s) = normalize_strain_name s :=
    pyStrip_eq_self hh hl
  have hfilter : (normalize_strain_name s).filter (fun c => c ≠ 46) =
      normalize_strain_name s :=
    List.filter_eq_self.mpr fun a ha => by simpa using (normalize_chars ha).2.1
  have hmap : (normalize_strain_name s).map (fun c => if isDedupSpecial c then 32 else c) =
      normalize_strain_name s := by
    conv_rhs => rw [← List.map_id (normalize_strain_name s)]
    refine List.map_congr_left fun c hc => ?_
    rw [(normalize_chars hc).2.2.1]
    simp
  have hcol : collapseSpaces (normalize_strain_name s) = normalize_strain_name s :=
    collapseSpaces_eq_self (fun c hc => (normalize_chars hc).2.2.2) hadj
  conv_lhs => rw [normalize_strain_name]
  rw [hlower, hstrip, hfilter, hmap, hcol, hstrip]

/-- Modelled from the spec: the similarity scorer used for name matching is
the external rapidfuzz library, which is not part of this repository's
sources; the spec defines the contract as a normalized edit-similarity
ratio.  `lev` is the standard Levenshtein edit distance (unit-cost
insert/delete/substitute) over codepoint lists. -/
def lev : PyStr → PyStr → Nat
  | [], ys => ys.length
  | x :: xs, [] => (x :: xs).length
  | x :: xs, y :: ys =>
    if x = y then lev xs ys
    else 1 + min (lev xs (y :: ys)) (min (lev (x :: xs) ys) (lev xs ys))
termination_by a b => a.length + b.length
decreasing_by all_goals simp_arith

theorem lev_nil_right (xs : PyStr) : lev xs [] = xs.length := by
  cases xs <;> simp [lev]

theorem lev_comm (a b : PyStr) : lev a b = lev b a := by
  induction a, b using lev.induct with
  | case1 ys => rw [lev, lev_nil_right]
  | case2 x xs => rw [lev_nil_right, lev]
  | case3 xs y ys ih =>
    rw [lev, lev, if_pos rfl, if_pos rfl, ih]
  | case4 x xs y ys hxy ih1 ih2 ih3 =>
    rw [lev, lev, if_neg hxy, if_neg (fun h => hxy h.symm), ih1, ih2, ih3]
    omega

theorem lev_le_max (a b : PyStr) : lev a b ≤ max a.length b.length := by
  induction a, b using lev.induct with
  | case1 ys => rw [lev]; omega
  | case2 x xs => rw [lev]; omega
  | case3 xs y ys ih =>
    rw [lev, if_pos rfl]
    simp only [List.length_cons]
    omega
  | case4 x xs y ys hxy ih1 ih2 ih3 =>
    rw [lev, if_neg hxy]
    simp only [List.length_cons] at *
    omega

/-- Modelled from the spec: `score(a, b) = 100 * (1 - editDistance/maxLen)`,
the Levenshtein-ratio style similarity contract of the SimilarityScorer
(two empty strings score 100). -/
def similarityScore (a b : PyStr) : ℚ :=
  if max a.length b.length = 0 then 100
  else 100 * (1 - (lev a b : ℚ) / (max a.length b.length : ℕ))

/-- C7: the similarity score used for name matching is symmetric and lies
in `[0, 100]`. -/
theorem similarityScore_symm_bounded (a b : PyStr) :
    similarityScore a b = similarityScore b a ∧
      0 ≤ similarityScore a b ∧ similarityScore a b ≤ 100 := by
  refine ⟨?_, ?_, ?_⟩
  · unfold similarityScore
    rw [lev_comm, Nat.max_comm]
  · unfold similarityScore
    split
    · norm_num
    · rename_i hm
      have hmpos : 0 < max a.length b.length := Nat.pos_of_ne_zero hm
      have hle : (lev a b : ℚ) / (max a.length b.length : ℕ) ≤ 1 := by
        rw [div_le_one (by exact_mod_cast hmpos)]
        exact_mod_cast lev_le_max a b
      nlinarith
  · unfold similarityScore
    split
    · norm_num
    · rename_i hm
      have hmpos : 0 < max a.length b.length := Nat.pos_of_ne_zero hm
      have hge : (0:ℚ) ≤ (lev a b : ℚ) / (max a.length b.length : ℕ) := by
        positivity
      nlinarith

/-- A row of the `effect_reports` table.  The confidence column's value type
is a parameter so that claims that never touch confidence can instantiate it
decidably; the aggregator uses `ℝ`. -/
structure Report (α : Type) where
  id : Nat
  strain_id : Nat
  effect_id : Nat
  report_count : Int
  source : String
  confidence : α

/-- The grouping query `SELECT strain_id, effect_id, COUNT(DISTINCT source) FROM effect_reports
GROUP BY strain_id, effect_id`, read off for one `(strain_id, effect_id)`
pair. -/
def sourceCount {α : Type} (rows : List (Report α)) (sid eid : Nat) : Nat :=
  (((rows.filter (fun r => r.strain_id = sid ∧ r.effect_id = eid)).map
    (fun r => r.source)).dedup).length

/-- The read `source_counts.get((strain_id, effect_id), 1)`: a pair absent from the
grouping (empty group) falls back to 1. -/
def nSources {α : Type} (rows : List (Report α)) (sid eid : Nat) : Nat :=
  if sourceCount rows sid eid = 0 then 1 else sourceCount rows sid eid

/-- The query `SELECT MAX(report_count) FROM effect_reports WHERE report_count > 0`,
with the code's fallback to 0 when no row qualifies. -/
def maxVotes {α : Type} (rows : List (Report α)) : Int :=
  ((rows.map (fun r => r.report_count)).filter (fun v => 0 < v)).foldr max 0

/-- The per-row confidence computed by `compute_confidence_scores` in
`cannalchemy/data/confidence.py`: base `0.4 + min(n_sources-1, 2)*0.2`,
plus `log1p(report_count)/log1p(max_votes)*0.2` when `max_votes > 0` and
`report_count` is truthy and positive, capped at 1.0. -/
noncomputable def newConfidence (rows : List (Report ℝ)) (r : Report ℝ) : ℝ :=
  let n := nSources rows r.strain_id r.effect_id
  let base : ℝ := 0.4 + (min (n - 1) 2 : ℕ) * 0.2
  let mv := maxVotes rows
  let withBonus : ℝ :=
    if 0 < mv ∧ 0 < r.report_count then
      base + Real.log (1 + (r.report_count : ℝ)) / Real.log (1 + (mv : ℝ)) * 0.2
    else base
  min withBonus 1

/-- The full recompute pass: every fetched row's confidence column is
rewritten via `UPDATE effect_reports SET confidence = ? WHERE id = ?`
(ids are the integer primary key, so the per-id update pass is a map). -/
noncomputable def compute_confidence_scores (rows : List (Report ℝ)) :
    List (Report ℝ) :=
  rows.map (fun r => { r with confidence := newConfidence rows r })

/-- The confidence value as the claim words it: `min(0.4 +
min(nSources-1,2)*0.2 + voteBonus, 1.0)` with `voteBonus =
ln(1+report_count)/ln(1+maxVotes)*0.2` when `maxVotes > 0` and
`report_count > 0`, else 0. -/
noncomputable def claimConfidence (rows : List (Report ℝ)) (r : Report ℝ) : ℝ :=
  let n := nSources rows r.strain_id r.effect_id
  let voteBonus : ℝ :=
    if 0 < maxVotes rows ∧ 0 < r.report_count then
      Real.log (1 + (r.report_count : ℝ)) / Real.log (1 + (maxVotes rows : ℝ)) * 0.2
    else 0
  min (0.4 + (min (n - 1) 2 : ℕ) * 0.2 + voteBonus) 1

theorem newConfidence_eq_claim (rows : List (Report ℝ)) (r : Report ℝ) :
    newConfidence rows r = claimConfidence rows r := by
  unfold newConfidence claimConfidence
  by_cases hg : 0 < maxVotes rows ∧ 0 < r.report_count
  · dsimp only
    rw [if_pos hg, if_pos hg]
  · dsimp only
    rw [if_neg hg, if_neg hg, add_zero]

theorem newConfidence_bounds (rows : List (Report ℝ)) (r : Report ℝ) :
    0 ≤ newConfidence rows r ∧ newConfidence rows r ≤ 1 := by
  unfold newConfidence
  refine ⟨le_min ?_ (by norm_num), min_le_right _ _⟩
  have hbase : (0:ℝ) ≤ 0.4 + (min (nSources rows r.strain_id r.effect_id - 1) 2 : ℕ) * 0.2 := by
    positivity
  split
  · rename_i hg
    have h1 : (0:ℝ) ≤ Real.log (1 + (r.report_count : ℝ)) := by
      apply Real.log_nonneg
      have : (1:ℝ) ≤ (r.report_count : ℝ) := by exact_mod_cast hg.2
      linarith

    have h2 : (0:ℝ) < Real.log (1 + (maxVotes rows : ℝ)) := by
      apply Real.log_pos
      have : (1:ℝ) ≤ (maxVotes rows : ℝ) := by exact_mod_cast hg.1
      linarith
    have hb : (0:ℝ) ≤ Real.log (1 + (r.report_count : ℝ)) /
        Real.log (1 + (maxVotes rows : ℝ)) * 0.2 := by
      apply mul_nonneg (div_nonneg h1 h2.le)
      norm_num
    linarith
  · exact hbase

/-- C1: each recomputed `effect_reports` confidence equals the claimed
formula and lies in `[0, 1]`. -/
theorem confidence_formula_and_bounds (rows : List (Report ℝ)) (x : Report ℝ)
    (hx : x ∈ compute_confidence_scores rows) :
    x.confidence = claimConfidence rows x ∧
      0 ≤ x.confidence ∧ x.confidence ≤ 1 := by
  obtain ⟨r, hr, hxr⟩ := List.mem_map.mp hx
  subst hxr
  refine ⟨?_, (newConfidence_bounds rows r).1, (newConfidence_bounds rows r).2⟩
  exact newConfidence_eq_claim rows r

/-- The non-confidence columns of an `effect_reports` row. -/
def reportKey {α : Type} (r : Report α) : Nat × Nat × Nat × Int × String :=
  (r.id, r.strain_id, r.effect_id, r.report_count, r.source)

/-- C9: the recompute pass rewrites only the confidence column — row count
and the `id`, `strain_id`, `effect_id`, `report_count`, `source` columns are
untouched, and no row is inserted or deleted. -/
theorem compute_confidence_scores_frame (rows : List (Report ℝ)) :
    (compute_confidence_scores rows).map reportKey = rows.map reportKey ∧
      (compute_confidence_scores rows).length = rows.length := by
  constructor
  · unfold compute_confidence_scores
    rw [List.map_map]
    rfl
  · unfold compute_confidence_scores
    rw [List.length_map]

/-- A concrete `effect_reports` row mirroring the repository's own test
fixture (single source, 100 reports). -/
noncomputable def demoReport : Report ℝ :=
  { id := 1, strain_id := 1, effect_id := 1, report_count := 100,
    source := "leafly", confidence := 1 }

noncomputable def demoReports : List (Report ℝ) := [demoReport]

theorem confidence_formula_and_bounds_witness :
    ({ demoReport with confidence := newConfidence demoReports demoReport } ∈
        compute_confidence_scores demoReports) ∧
      0 ≤ ({ demoReport with
        confidence := newConfidence demoReports demoReport } : Report ℝ).confidence ∧
      ({ demoReport with
        confidence := newConfidence demoReports demoReport } : Report ℝ).confidence ≤ 1 := by
  have hmem : { demoReport with confidence := newConfidence demoReports demoReport } ∈
      compute_confidence_scores demoReports :=
    List.mem_map_of_mem _ (List.mem_cons_self _ _)
  have h := confidence_formula_and_bounds demoReports _ hmem
  exact ⟨hmem, h.2.1, h.2.2⟩

/-- A `strains` row (the two columns `merge_strain_cluster` reads). -/
structure StrainRow where
  id : Nat
  normalized_name : String
deriving DecidableEq

/-- A fetched row of the richness query in `merge_strain_cluster`:
`SELECT s.id, s.normalized_name, COALESCE(comp.cnt,0) + COALESCE(eff.cnt,0)`.
The `strain_compositions` and `effect_reports` tables enter the query only
through their `strain_id` columns, embedded below as `List Nat`. -/
structure MergeRow where
  id : Nat
  nname : String
  richness : Nat
deriving DecidableEq

/-- The sum `COALESCE(comp.cnt, 0) + COALESCE(eff.cnt, 0)` for one strain id, where
`comps` and `reps` are the `strain_id` columns of `strain_compositions` and
`effect_reports`. -/
def strainRichness (comps reps : List Nat) (sid : Nat) : Nat :=
  (comps.filter (fun c => c = sid)).length + (reps.filter (fun c => c = sid)).length

/-- The rows satisfying `WHERE s.normalized_name IN (cluster)`, before the
`ORDER BY`. -/
def clusterRows (strains : List StrainRow) (comps reps : List Nat)
    (cluster : List String) : List MergeRow :=
  (strains.filter (fun s => s.normalized_name ∈ cluster)).map
    (fun s => ⟨s.id, s.normalized_name, strainRichness comps reps s.id⟩)

/-- The ordering `ORDER BY richness DESC, s.id ASC` as a relation. -/
def mergeOrder (a b : MergeRow) : Prop :=
  b.richness < a.richness ∨ (a.richness = b.richness ∧ a.id ≤ b.id)

instance : DecidableRel mergeOrder := fun a b => by
  unfold mergeOrder; infer_instance

instance : IsTotal MergeRow mergeOrder where
  total a b := by
    unfold mergeOrder
    rcases Nat.lt_trichotomy a.richness b.richness with h | h | h
    · exact Or.inr (Or.inl h)
    · rcases Nat.le_total a.id b.id with h2 | h2
      · exact Or.inl (Or.inr ⟨h, h2⟩)
      · exact Or.inr (Or.inr ⟨h.symm, h2⟩)
    · exact Or.inl (Or.inl h)

instance : IsTrans MergeRow mergeOrder where
  trans a b c hab hbc := by
    unfold mergeOrder at *
    rcases hab with h1 | ⟨h1, h1'⟩ <;> rcases hbc with h2 | ⟨h2, h2'⟩
    · exact Or.inl (h2.trans h1)
    · exact Or.inl (h2 ▸ h1)
    · exact Or.inl (h1 ▸ h2)
    · exact Or.inr ⟨h1.trans h2, h1'.trans h2'⟩

/-- The fetched result list of the richness query, in `ORDER BY` order. -/
def sortedClusterRows (strains : List StrainRow) (comps reps : List Nat)
    (cluster : List String) : List MergeRow :=
  List.insertionSort mergeOrder (clusterRows strains comps reps cluster)

/-- A `strain_aliases` row. -/
structure AliasRow where
  alias_strain_id : Nat
  canonical_strain_id : Nat
  match_score : ℚ
deriving DecidableEq

/-- Whether the store already has an alias row keyed by `k`. -/
def hasAliasKey (store : List AliasRow) (k : Nat) : Bool :=
  store.any (fun x => x.alias_strain_id = k)

/-- Modelled from the spec: the `strain_aliases` DDL is absent from
`schema.py` in src (its tests `test_schema_v2.py`/`test_dedup_strains.py`
require `init_db` to create it); the spec gives the table uniqueness on the
alias entity id and insert-or-ignore semantics idempotent by that key. -/
def insertOrIgnoreAlias (store : List AliasRow) (a : AliasRow) : List AliasRow :=
  if hasAliasKey store a.alias_strain_id then store
  else store ++ [a]

/-- The alias-creation loop of `merge_strain_cluster`: one
`INSERT OR IGNORE` per fetched non-canonical row. -/
def insertAliases (rows : List MergeRow) (cid : Nat) (store : List AliasRow) :
    List AliasRow :=
  rows.foldl
    (fun acc row =>
      if row.id = cid then acc else insertOrIgnoreAlias acc ⟨row.id, cid, 100⟩)
    store

/-- The function `merge_strain_cluster` from `cannalchemy/data/dedup_strains.py`: pick the
first row of the richness query as canonical, alias every other fetched row
to it, and return the canonical normalized name together with the resulting
`strain_aliases` table. -/
def merge_strain_cluster (strains : List StrainRow) (comps reps : List Nat)
    (cluster : List String) (store : List AliasRow) : String × List AliasRow :=
  if cluster.length < 2 then (cluster.headD "", store)
  else
    match sortedClusterRows strains comps reps cluster with
    | [] => ("", store)
    | c :: rest => (c.nname, insertAliases (c :: rest) c.id store)

/-- C2: the member chosen as canonical by `merge_strain_cluster` is ranked
first by richness descending with ties broken by ascending id: it beats
every fetched cluster member under that order, so equal richness resolves
to the lower id. -/
theorem merge_canonical_first (strains : List StrainRow) (comps reps : List Nat)
    (cluster : List String) (store : List AliasRow) (c : MergeRow)
    (rest : List MergeRow) (h2 : 2 ≤ cluster.length)
    (hsort : sortedClusterRows strains comps reps cluster = c :: rest) :
    (merge_strain_cluster strains comps reps cluster store).1 = c.nname ∧
      c ∈ clusterRows strains comps reps cluster ∧
      ∀ m ∈ clusterRows strains comps reps cluster,
        m.richness < c.richness ∨ (m.richness = c.richness ∧ c.id ≤ m.id) := by
  have hperm := List.perm_insertionSort mergeOrder
    (clusterRows strains comps reps cluster)
  rw [sortedClusterRows] at hsort
  have hsorted : List.Sorted mergeOrder (c :: rest) := by
    rw [← hsort]
    exact List.sorted_insertionSort mergeOrder _
  refine ⟨?_, ?_, ?_⟩
  · unfold merge_strain_cluster
    rw [if_neg (by omega), sortedClusterRows, hsort]
  · have : c ∈ c :: rest := List.mem_cons_self _ _
    rw [← hsort] at this
    exact hperm.mem_iff.mp this
  · intro m hm
    have hm2 : m ∈ c :: rest := by
      rw [← hsort]
      exact hperm.mem_iff.mpr hm
    rcases List.mem_cons.mp hm2 with rfl | hm3
    · exact Or.inr ⟨rfl, le_refl _⟩
    · have h := List.rel_of_sorted_cons hsorted m hm3
      unfold mergeOrder at h
      rcases h with h | ⟨h1, h2⟩
      · exact Or.inl h
      · exact Or.inr ⟨h1.symm, h2⟩

/-- Two strains, equal richness (no compositions, no reports), ids 2 and 1. -/
def demoStrains : List StrainRow := [⟨2, "b"⟩, ⟨1, "a"⟩]

def demoCluster : List String := ["a", "b"]

theorem merge_canonical_first_witness :
    (merge_strain_cluster demoStrains [] [] demoCluster []).1 = "a" ∧
      ∀ m ∈ clusterRows demoStrains [] [] demoCluster,
        m.richness < 0 ∨ (m.richness = 0 ∧ 1 ≤ m.id) := by
  have h := merge_canonical_first demoStrains [] [] demoCluster [] ⟨1, "a", 0⟩
    [⟨2, "b", 0⟩] (by decide) (by decide)
  exact ⟨h.1, fun m hm => h.2.2 m hm⟩

theorem hasAliasKey_insertOrIgnore_self (store : List AliasRow) (a : AliasRow) :
    hasAliasKey (insertOrIgnoreAlias store a) a.alias_strain_id = true := by
  unfold insertOrIgnoreAlias hasAliasKey
  split
  · assumption
  · rw [List.any_append]
    simp

theorem hasAliasKey_insertOrIgnore_mono {store : List AliasRow} {k : Nat}
    (h : hasAliasKey store k = true) (a : AliasRow) :
    hasAliasKey (insertOrIgnoreAlias store a) k = true := by
  unfold insertOrIgnoreAlias
  split
  · exact h
  · unfold hasAliasKey at *
    rw [List.any_append, h]
    rfl

theorem insertAliases_cons (r : MergeRow) (rest : List MergeRow) (cid : Nat)
    (store : List AliasRow) :
    insertAliases (r :: rest) cid store =
      insertAliases rest cid
        (if r.id = cid then store
         else insertOrIgnoreAlias store ⟨r.id, cid, 100⟩) := rfl

theorem hasAliasKey_insertAliases_mono {store : List AliasRow} {k : Nat}
    (rows : List MergeRow) (cid : Nat) (h : hasAliasKey store k = true) :
    hasAliasKey (insertAliases rows cid store) k = true := by
  induction rows generalizing store with
  | nil => exact h
  | cons r rest ih =>
    rw [insertAliases_cons]
    by_cases hr : r.id = cid
    · rw [if_pos hr]
      exact ih h
    · rw [if_neg hr]
      exact ih (hasAliasKey_insertOrIgnore_mono h _)

theorem insertAliases_key_present (rows : List MergeRow) (cid : Nat)
    (store : List AliasRow) :
    ∀ m ∈ rows, m.id ≠ cid →
      hasAliasKey (insertAliases rows cid store) m.id = true := by
  induction rows generalizing store with
  | nil => intro m hm; cases hm
  | cons r rest ih =>
    intro m hm hmc
    rw [insertAliases_cons]
    rcases List.mem_cons.mp hm with rfl | hm2
    · rw [if_neg hmc]
      exact hasAliasKey_insertAliases_mono rest cid
        (hasAliasKey_insertOrIgnore_self store _)
    · by_cases hr : r.id = cid
      · rw [if_pos hr]
        exact ih store m hm2 hmc
      · rw [if_neg hr]
        exact ih _ m hm2 hmc

/-- A second insertion pass over keys that are all already present is the
identity on the store. -/
theorem insertAliases_noop (rows : List MergeRow) (cid : Nat)
    (store : List AliasRow)
    (h : ∀ m ∈ rows, m.id ≠ cid → hasAliasKey store m.id = true) :
    insertAliases rows cid store = store := by
  induction rows generalizing store with
  | nil => rfl
  | cons r rest ih =>
    rw [insertAliases_cons]
    by_cases hr : r.id = cid
    · rw [if_pos hr]
      exact ih store fun m hm => h m (List.mem_cons_of_mem _ hm)
    · rw [if_neg hr]
      have hx : hasAliasKey store
          (AliasRow.alias_strain_id ⟨r.id, cid, 100⟩) = true :=
        h r (List.mem_cons_self _ _) hr
      rw [insertOrIgnoreAlias, if_pos hx]
      exact ih store fun m hm => h m (List.mem_cons_of_mem _ hm)

/-- The insertion pass never touches alias rows keyed outside the processed
rows. -/
theorem insertAliases_filter_other (rows : List MergeRow) (cid : Nat)
    (store : List AliasRow) (k : Nat) :
    (∀ r ∈ rows, r.id ≠ k) →
    (insertAliases rows cid store).filter (fun a => a.alias_strain_id = k) =
      store.filter (fun a => a.alias_strain_id = k) := by
  induction rows generalizing store with
  | nil => intro _; rfl
  | cons r rest ih =>
    intro h
    rw [insertAliases_cons]
    by_cases hr : r.id = cid
    · rw [if_pos hr]
      exact ih store (fun x hx => h x (List.mem_cons_of_mem _ hx))
    · rw [if_neg hr]
      rw [ih _ (fun x hx => h x (List.mem_cons_of_mem _ hx))]
      unfold insertOrIgnoreAlias
      split
      · rfl
      · rw [List.filter_append]
        have hnil : List.filter (fun a => a.alias_strain_id = k)
            [(⟨r.id, cid, 100⟩ : AliasRow)] = [] := by
          simp [List.filter, h r (List.mem_cons_self _ _)]
        rw [hnil, List.append_nil]

/-- After one insertion pass over a store holding no row keyed by any
processed member, each non-canonical member has exactly the single alias
row `(memberID → canonicalID, 100.0)`. -/
theorem insertAliases_filter_eq (rows : List MergeRow) (cid : Nat) :
    ∀ store : List AliasRow, (rows.map (fun r => r.id)).Nodup →
    (∀ a ∈ store, ∀ r ∈ rows, a.alias_strain_id ≠ r.id) →
    ∀ m ∈ rows, m.id ≠ cid →
      (insertAliases rows cid store).filter (fun a => a.alias_strain_id = m.id) =
        [⟨m.id, cid, 100⟩] := by
  induction rows with
  | nil => intro store _ _ m hm; cases hm
  | cons r rest ih =>
    intro store hnd hpre m hm hmc
    have hnd2 : (rest.map (fun r => r.id)).Nodup := (List.nodup_cons.mp hnd).2
    have hrid : r.id ∉ rest.map (fun x => x.id) := (List.nodup_cons.mp hnd).1
    rw [insertAliases_cons]
    rcases List.mem_cons.mp hm with rfl | hm2
    · rw [if_neg hmc]
      have habs : hasAliasKey store
          (AliasRow.alias_strain_id ⟨m.id, cid, 100⟩) = false := by
        unfold hasAliasKey
        rw [List.any_eq_false]
        intro a ha
        simpa using hpre a ha m (List.mem_cons_self _ _)
      rw [insertOrIgnoreAlias, habs]
      simp only [Bool.false_eq_true, if_false]
      have hrest : ∀ x ∈ rest, x.id ≠ m.id := by
        intro x hx hcon
        exact hrid (hcon ▸ List.mem_map_of_mem (fun y => y.id) hx)
      rw [insertAliases_filter_other rest cid _ m.id hrest, List.filter_append]
      have h1 : store.filter (fun a => a.alias_strain_id = m.id) = [] := by
        rw [List.filter_eq_nil_iff]
        intro a ha
        simpa using hpre a ha m (List.mem_cons_self _ _)
      have h2 : List.filter (fun a => a.alias_strain_id = m.id)
          [(⟨m.id, cid, 100⟩ : AliasRow)] = [⟨m.id, cid, 100⟩] := by
        simp [List.filter]
      rw [h1, h2, List.nil_append]
    · by_cases hr : r.id = cid
      · rw [if_pos hr]
        exact ih _ hnd2 (fun a ha x hx => hpre a ha x (List.mem_cons_of_mem _ hx))
          m hm2 hmc
      · rw [if_neg hr]
        refine ih _ hnd2 ?_ m hm2 hmc
        intro a ha x hx
        unfold insertOrIgnoreAlias at ha
        split at ha
        · exact hpre a ha x (List.mem_cons_of_mem _ hx)
        · rcases List.mem_append.mp ha with ha2 | ha2
          · exact hpre a ha2 x (List.mem_cons_of_mem _ hx)
          · have ha3 : a = ⟨r.id, cid, 100⟩ := by simpa using ha2
            subst ha3
            intro hcon
            have hcon2 : r.id = x.id := hcon
            exact hrid (hcon2 ▸ List.mem_map_of_mem (fun y => y.id) hx)

/-- C3: re-running `merge_strain_cluster` on the same cluster over the same
store creates zero new `strain_aliases` rows, and each non-canonical member
ends up with exactly one alias row `(memberID → canonicalID, 100.0)`. -/
theorem merge_strain_cluster_idempotent (strains : List StrainRow)
    (comps reps : List Nat) (cluster : List String) (store : List AliasRow)
    (c : MergeRow) (rest : List MergeRow) (h2 : 2 ≤ cluster.length)
    (hsort : sortedClusterRows strains comps reps cluster = c :: rest)
    (hnd : ((clusterRows strains comps reps cluster).map (fun r => r.id)).Nodup)
    (hpre : ∀ a ∈ store, ∀ r ∈ clusterRows strains comps reps cluster,
      a.alias_strain_id ≠ r.id) :
    (merge_strain_cluster strains comps reps cluster
        (merge_strain_cluster strains comps reps cluster store).2).2 =
      (merge_strain_cluster strains comps reps cluster store).2 ∧
    ∀ m ∈ clusterRows strains comps reps cluster, m.id ≠ c.id →
      ((merge_strain_cluster strains comps reps cluster store).2).filter
        (fun a => a.alias_strain_id = m.id) = [⟨m.id, c.id, 100⟩] := by
  have hlt : ¬cluster.length < 2 := by omega
  have hperm : (c :: rest).Perm (clusterRows strains comps reps cluster) := by
    rw [← hsort, sortedClusterRows]
    exact List.perm_insertionSort mergeOrder _
  have hnds : ((c :: rest).map (fun r => r.id)).Nodup :=
    ((hperm.map (fun r => r.id)).nodup_iff).mpr hnd
  have hpres : ∀ a ∈ store, ∀ r ∈ c :: rest, a.alias_strain_id ≠ r.id :=
    fun a ha r hr => hpre a ha r (hperm.mem_iff.mp hr)
  have hrun : ∀ st : List AliasRow,
      merge_strain_cluster strains comps reps cluster st =
        (c.nname, insertAliases (c :: rest) c.id st) := by
    intro st
    unfold merge_strain_cluster
    rw [if_neg hlt, hsort]
  constructor
  · rw [hrun store, hrun (c.nname, insertAliases (c :: rest) c.id store).2]
    refine insertAliases_noop _ _ _ ?_
    intro m hm hmc
    exact insertAliases_key_present (c :: rest) c.id store m hm hmc
  · intro m hm hmc
    rw [hrun store]
    exact insertAliases_filter_eq (c :: rest) c.id store hnds hpres m
      (hperm.mem_iff.mpr hm) hmc

theorem merge_strain_cluster_idempotent_witness :
    (merge_strain_cluster demoStrains [] [] demoCluster
        (merge_strain_cluster demoStrains [] [] demoCluster []).2).2 =
      (merge_strain_cluster demoStrains [] [] demoCluster []).2 ∧
    ∀ m ∈ clusterRows demoStrains [] [] demoCluster, m.id ≠ 1 →
      ((merge_strain_cluster demoStrains [] [] demoCluster []).2).filter
        (fun a => a.alias_strain_id = m.id) = [⟨m.id, 1, 100⟩] :=
  merge_strain_cluster_idempotent demoStrains [] [] demoCluster []
    ⟨1, "a", 0⟩ [⟨2, "b", 0⟩] (by decide) (by decide) (by decide)
    (by intro a ha; cases ha)

/-- The function `_find_root` with path compression over a parent map embedded as a
function.  The Python loop walks a finite parent forest; `fuel` bounds the
walk and is instantiated with the number of names at every call site. -/
def findRootC : Nat → (String → String) → String → String × (String → String)
  | 0, p, x => (x, p)
  | fuel + 1, p, x =>
    if p x = x then (x, p)
    else
      findRootC fuel (fun n => if n = x then p (p x) else p n) (p (p x))

/-- The union-find state: `parent` and `rank` dictionaries. -/
structure UFState where
  parent : String → String
  rank : String → Nat

/-- The function `_union`: union by rank of the two names' roots. -/
def ufUnion (fuel : Nat) (st : UFState) (a b : String) : UFState :=
  let fa := findRootC fuel st.parent a
  let fb := findRootC fuel fa.2 b
  if fa.1 = fb.1 then { st with parent := fb.2 }
  else
    let x := if st.rank fa.1 < st.rank fb.1 then fb.1 else fa.1
    let y := if st.rank fa.1 < st.rank fb.1 then fa.1 else fb.1
    { parent := fun n => if n = y then x else fb.2 n,
      rank := if st.rank x = st.rank y then
          (fun n => if n = x then st.rank x + 1 else st.rank n)
        else st.rank }

/-- The comparison loop of `find_duplicate_clusters`: each name is compared
against the names after it; every match unions the two sets.  The external
rapidfuzz `process.extract` call is a parameter `matcher` returning the
matched candidate names. -/
def unionPass (fuel : Nat) (matcher : String → List String → List String) :
    UFState → List String → UFState
  | st, [] => st
  | st, n :: rest =>
    unionPass fuel matcher
      (if rest.isEmpty then st
       else (matcher n rest).foldl (fun s m => ufUnion fuel s n m) st)
      rest

/-- The dict update `clusters.setdefault(root, []).append(name)` over an insertion-ordered
dict embedded as an association list. -/
def addToBucket : List (String × List String) → String → String →
    List (String × List String)
  | [], root, n => [(root, [n])]
  | (k, v) :: restB, root, n =>
    if k = root then (k, v ++ [n]) :: restB
    else (k, v) :: addToBucket restB root n

/-- The cluster-collection loop: group every name under its root (the
parent map keeps evolving through path compression). -/
def collectClusters (fuel : Nat) :
    (String → String) → List (String × List String) → List String →
      List (String × List String)
  | _, acc, [] => acc
  | p, acc, n :: rest =>
    collectClusters fuel (findRootC fuel p n).2
      (addToBucket acc (findRootC fuel p n).1 n) rest

/-- The function `find_duplicate_clusters` from `cannalchemy/data/dedup_strains.py`,
over the distinct normalized names (`names`) and the external fuzzy
matcher: union-find clustering, then groups of 2+ members. -/
def find_duplicate_clusters (matcher : String → List String → List String)
    (names : List String) : List (List String) :=
  if names.length < 2 then []
  else
    let st := unionPass names.length matcher ⟨fun n => n, fun _ => 0⟩ names
    ((collectClusters names.length st.parent [] names).map
      (fun kv => kv.2)).filter (fun c => 2 ≤ c.length)

/-- All bucket members, in bucket order. -/
def bucketElems (acc : List (String × List String)) : List String :=
  (acc.map (fun kv => kv.2)).flatten

theorem bucketElems_addToBucket (acc : List (String × List String))
    (root n : String) :
    (bucketElems (addToBucket acc root n)).Perm (n :: bucketElems acc) := by
  induction acc with
  | nil => exact List.Perm.refl _
  | cons kv restB ih =>
    obtain ⟨k, v⟩ := kv
    unfold addToBucket
    split
    · unfold bucketElems
      simp only [List.map_cons, List.flatten_cons]
      rw [List.append_assoc]
      exact List.perm_middle
    · unfold bucketElems at *
      simp only [List.map_cons, List.flatten_cons]
      exact (List.Perm.append_left v ih).trans List.perm_middle

theorem bucketElems_collectClusters (fuel : Nat) :
    ∀ (l : List String) (p : String → String)
      (acc : List (String × List String)),
      (bucketElems (collectClusters fuel p acc l)).Perm (bucketElems acc ++ l) := by
  intro l
  induction l with
  | nil => intro p acc; simp [collectClusters]
  | cons n rest ih =>
    intro p acc
    unfold collectClusters
    have h1 := ih (findRootC fuel p n).2 (addToBucket acc (findRootC fuel p n).1 n)
    have h2 := (bucketElems_addToBucket acc (findRootC fuel p n).1 n).append_right rest
    have h4 : (bucketElems acc ++ n :: rest).Perm (n :: (bucketElems acc ++ rest)) :=
      List.perm_middle
    exact h1.trans (h2.trans h4.symm)

/-- C10: the clusters returned by `find_duplicate_clusters` are pairwise
disjoint and every cluster member is one of the distinct input names. -/
theorem find_duplicate_clusters_disjoint
    (matcher : String → List String → List String) (names : List String)
    (hnd : names.Nodup) :
    List.Pairwise List.Disjoint (find_duplicate_clusters matcher names) ∧
      ∀ c ∈ find_duplicate_clusters matcher names, ∀ x ∈ c, x ∈ names := by
  unfold find_duplicate_clusters
  split
  · simp
  · have hperm : (bucketElems (collectClusters names.length
        (unionPass names.length matcher ⟨fun n => n, fun _ => 0⟩ names).parent
        [] names)).Perm names := by
      have h := bucketElems_collectClusters names.length names
        (unionPass names.length matcher ⟨fun n => n, fun _ => 0⟩ names).parent []
      simpa [bucketElems] using h
    have hflat : (bucketElems (collectClusters names.length
        (unionPass names.length matcher ⟨fun n => n, fun _ => 0⟩ names).parent
        [] names)).Nodup := hperm.nodup_iff.mpr hnd
    rw [bucketElems, List.nodup_flatten] at hflat
    constructor
    · exact List.Pairwise.sublist (List.filter_sublist _) hflat.2
    · intro c hc x hx
      have hc2 : c ∈ (collectClusters names.length
          (unionPass names.length matcher ⟨fun n => n, fun _ => 0⟩ names).parent
          [] names).map (fun kv => kv.2) :=
        (List.filter_sublist _).mem hc
      have hxflat : x ∈ bucketElems (collectClusters names.length
          (unionPass names.length matcher ⟨fun n => n, fun _ => 0⟩ names).parent
          [] names) := by
        rw [bucketElems, List.mem_flatten]
        exact ⟨c, hc2, hx⟩
      exact hperm.mem_iff.mp hxflat

theorem find_duplicate_clusters_disjoint_witness :
    List.Pairwise List.Disjoint
        (find_duplicate_clusters (fun _ _ => []) ["a", "b"]) ∧
      ∀ c ∈ find_duplicate_clusters (fun _ _ => []) ["a", "b"],
        ∀ x ∈ c, x ∈ ["a", "b"] :=
  find_duplicate_clusters_disjoint (fun _ _ => []) ["a", "b"] (by decide)

/-- Generic Python-dict lookup over an insertion-ordered association list. -/
def plookup {β : Type} (d : List (PyStr × β)) (k : PyStr) : Option β :=
  (d.find? (fun p => p.1 = k)).map (fun p => p.2)

/-- Membership `k in d`. -/
def dcontains {β : Type} (d : List (PyStr × β)) (k : PyStr) : Bool :=
  d.any (fun p => p.1 = k)

/-- Assignment `d[k] = v`: overwrite in place when the key exists, else append —
Python-dict assignment preserving insertion order. -/
def dinsert {β : Type} (d : List (PyStr × β)) (k : PyStr) (v : β) :
    List (PyStr × β) :=
  if dcontains d k then d.map (fun p => if p.1 = k then (k, v) else p)
  else d ++ [(k, v)]

/-- A value of the lookup dict built by `build_effect_lookup`. -/
structure EffectEntry where
  id : Nat
  canonical_name : PyStr
  category : String
deriving DecidableEq

/-- A `canonical_effects` row with its synonyms column already JSON-parsed. -/
structure CanonicalEffectRow where
  id : Nat
  name : PyStr
  category : String
  synonyms : List PyStr
deriving DecidableEq

/-- One iteration of the `build_effect_lookup` loop: assign the canonical
name's entry, then add each case-folded synonym only if absent. -/
def buildStep (d : List (PyStr × EffectEntry)) (row : CanonicalEffectRow) :
    List (PyStr × EffectEntry) :=
  row.synonyms.foldl
    (fun d2 syn =>
      if dcontains d2 (pyStrip (pyLower syn)) then d2
      else d2 ++ [(pyStrip (pyLower syn), ⟨row.id, row.name, row.category⟩)])
    (dinsert d row.name ⟨row.id, row.name, row.category⟩)

/-- The function `build_effect_lookup` from `cannalchemy/data/consumer_mapper.py`. -/
def build_effect_lookup (rows : List CanonicalEffectRow) :
    List (PyStr × EffectEntry) :=
  rows.foldl buildStep []

/-- The helper `_normalize_consumer_effect`: lowercase, strip, spaces to hyphens. -/
def normalizeConsumerEffect (s : PyStr) : PyStr :=
  (pyStrip (pyLower s)).map (fun c => if c = 32 then 45 else c)

/-- The dict returned by `map_effect_name`. -/
structure MappedEffect where
  canonical_name : PyStr
  canonical_id : Nat
  category : String
  method : String
deriving DecidableEq

/-- The function `map_effect_name` from `cannalchemy/data/consumer_mapper.py`: exact
(hyphen-normalized) lookup, then synonym (lowercased) lookup, then external
fuzzy match (`process.extractOne`, the parameter `fm`) against canonical
name keys only. -/
def map_effect_name (fm : PyStr → List PyStr → Option PyStr) (name : PyStr)
    (lookup : List (PyStr × EffectEntry)) : Option MappedEffect :=
  match plookup lookup (normalizeConsumerEffect name) with
  | some entry =>
    some ⟨entry.canonical_name, entry.id, entry.category,
      if entry.canonical_name = normalizeConsumerEffect name then "exact"
      else "synonym"⟩
  | none =>
    match plookup lookup (pyStrip (pyLower name)) with
    | some entry => some ⟨entry.canonical_name, entry.id, entry.category, "synonym"⟩
    | none =>
      match fm (normalizeConsumerEffect name)
          ((lookup.filter (fun p => p.2.canonical_name = p.1)).map
            (fun p => p.1)) with
      | some m =>
        match plookup lookup m with
        | some entry => some ⟨entry.canonical_name, entry.id, entry.category, "fuzzy"⟩
        | none => none
      | none => none

/-- An `effect_mappings` row as written by the classifiers
(`canonical_id`, `confidence`, `method`). -/
structure EffectMapping where
  canonical_id : Option Nat
  confidence : ℚ
  method : String
deriving DecidableEq

/-- The per-name decision of `classify_effects_rule_based` in
`cannalchemy/data/llm_classify.py`: length filter over 40 characters first,
then exact match against canonical names, then the synonym map (a truthy,
known canonical target is required); `none` means no row is written. -/
def classify_effect_rule_based (canonical_ids : List (PyStr × Nat))
    (synonym_map : List (PyStr × PyStr)) (raw : PyStr) : Option EffectMapping :=
  if 40 < raw.length then some ⟨none, 0, "length_filter"⟩
  else
    match plookup canonical_ids (pyStrip (pyLower raw)) with
    | some i => some ⟨some i, 1, "exact_match"⟩
    | none =>
      match plookup synonym_map (pyStrip (pyLower raw)) with
      | some cname =>
        if cname.isEmpty then none
        else
          match plookup canonical_ids cname with
          | some i => some ⟨some i, 95 / 100, "synonym_match"⟩
          | none => none
      | none => none

/-- The junk marker string, `"JUNK"`. -/
def junkMarker : PyStr := [74, 85, 78, 75]

/-- The per-mapping decision of `classify_effects_llm`: the LLM's value is
either the junk marker, a known canonical name, or dropped. -/
def classify_effect_llm (canonical_ids : List (PyStr × Nat))
    (mapped_value : PyStr) : Option EffectMapping :=
  if mapped_value = junkMarker then some ⟨none, 0, "llm_junk"⟩
  else
    match plookup canonical_ids mapped_value with
    | some i => some ⟨some i, 85 / 100, "llm_glm-4.7"⟩
    | none => none

theorem plookup_append_of_some {β : Type} {d : List (PyStr × β)} {k : PyStr}
    {e : β} (l : List (PyStr × β)) (h : plookup d k = some e) :
    plookup (d ++ l) k = some e := by
  unfold plookup at h ⊢
  cases hp0 : d.find? (fun p => p.1 = k) with
  | none => rw [hp0] at h; cases h
  | some p0 =>
    rw [hp0] at h
    rw [List.find?_append, hp0]
    simpa using h

theorem plookup_dinsert_self {β : Type} (d : List (PyStr × β)) (k : PyStr)
    (v : β) : plookup (dinsert d k v) k = some v := by
  unfold dinsert
  split
  · rename_i hc
    induction d with
    | nil => simp [dcontains] at hc
    | cons p rest ih =>
      by_cases hp : p.1 = k
      · unfold plookup
        rw [List.map_cons, if_pos hp, List.find?_cons_of_pos _ (by simp)]
        rfl
      · unfold plookup
        rw [List.map_cons, if_neg hp,
          List.find?_cons_of_neg _ (by simpa using hp)]
        have hc2 : dcontains rest k = true := by
          unfold dcontains at hc ⊢
          rcases List.any_eq_true.mp hc with ⟨x, hx, hxk⟩
          rcases List.mem_cons.mp hx with rfl | hx2
          · exact absurd (by simpa using hxk) hp
          · exact List.any_eq_true.mpr ⟨x, hx2, hxk⟩
        exact ih hc2
  · rename_i hc
    have hnone : d.find? (fun p => p.1 = k) = none := by
      rw [List.find?_eq_none]
      intro x hx
      unfold dcontains at hc
      intro hxk
      exact hc (List.any_eq_true.mpr ⟨x, hx, hxk⟩)
    unfold plookup
    rw [List.find?_append, hnone]
    simp

theorem plookup_map_replace {β : Type} (d : List (PyStr × β)) (k n : PyStr)
    (v : β) (hne : n ≠ k) :
    plookup (d.map (fun p => if p.1 = k then (k, v) else p)) n = plookup d n := by
  induction d with
  | nil => rfl
  | cons p rest ih =>
    unfold plookup at ih ⊢
    rw [List.map_cons]
    by_cases hp : p.1 = k
    · have hp1n : ¬p.1 = n := by
        rw [hp]
        exact fun h => hne h.symm
      rw [if_pos hp, List.find?_cons_of_neg _ (by simpa using fun h => hne h.symm),
        List.find?_cons_of_neg _ (by simpa using hp1n)]
      exact ih
    · rw [if_neg hp]
      by_cases hpn : p.1 = n
      · rw [List.find?_cons_of_pos _ (by simpa using hpn),
          List.find?_cons_of_pos _ (by simpa using hpn)]
      · rw [List.find?_cons_of_neg _ (by simpa using hpn),
          List.find?_cons_of_neg _ (by simpa using hpn)]
        exact ih

theorem plookup_dinsert_other {β : Type} (d : List (PyStr × β)) (k n : PyStr)
    (v : β) (hne : n ≠ k) : plookup (dinsert d k v) n = plookup d n := by
  unfold dinsert
  split
  · exact plookup_map_replace d k n v hne
  · unfold plookup
    rw [List.find?_append]
    cases hd : d.find? (fun p => p.1 = n) with
    | some p0 => rfl
    | none =>
      simp [List.find?, hne.symm]

/-- The key `n` resolves to an entry whose canonical name is `n` itself. -/
def GoodKey (d : List (PyStr × EffectEntry)) (n : PyStr) : Prop :=
  ∃ e, plookup d n = some e ∧ e.canonical_name = n

theorem goodKey_append {d : List (PyStr × EffectEntry)} {n : PyStr}
    (l : List (PyStr × EffectEntry)) (h : GoodKey d n) : GoodKey (d ++ l) n := by
  obtain ⟨e, he, hce⟩ := h
  exact ⟨e, plookup_append_of_some l he, hce⟩

theorem goodKey_synLoop {n : PyStr} (syns : List PyStr) (e0 : EffectEntry) :
    ∀ d : List (PyStr × EffectEntry), GoodKey d n →
      GoodKey (syns.foldl
        (fun d2 syn =>
          if dcontains d2 (pyStrip (pyLower syn)) then d2
          else d2 ++ [(pyStrip (pyLower syn), e0)]) d) n := by
  induction syns with
  | nil => intro d h; exact h
  | cons s rest ih =>
    intro d h
    rw [List.foldl_cons]
    split
    · exact ih d h
    · exact ih _ (goodKey_append _ h)

theorem goodKey_buildStep (d : List (PyStr × EffectEntry))
    (row : CanonicalEffectRow) (n : PyStr)
    (h : GoodKey d n ∨ n = row.name) : GoodKey (buildStep d row) n := by
  unfold buildStep
  apply goodKey_synLoop
  by_cases hn : n = row.name
  · subst hn
    exact ⟨⟨row.id, row.name, row.category⟩,
      plookup_dinsert_self d row.name _, rfl⟩
  · rcases h with h | heq
    · obtain ⟨e, he, hce⟩ := h
      exact ⟨e, (plookup_dinsert_other d row.name n _ hn).trans he, hce⟩
    · exact absurd heq hn

theorem goodKey_build_aux (rows : List CanonicalEffectRow) :
    ∀ d : List (PyStr × EffectEntry), ∀ n : PyStr,
      (GoodKey d n ∨ ∃ row ∈ rows, row.name = n) →
      GoodKey (rows.foldl buildStep d) n := by
  induction rows with
  | nil =>
    intro d n h
    rcases h with h | ⟨row, hrow, _⟩
    · exact h
    · cases hrow
  | cons row rest ih =>
    intro d n h
    rw [List.foldl_cons]
    rcases h with h | ⟨row2, hrow2, hname⟩
    · exact ih _ n (Or.inl (goodKey_buildStep d row n (Or.inl h)))
    · rcases List.mem_cons.mp hrow2 with rfl | hrow3
      · exact ih _ n (Or.inl (goodKey_buildStep d row2 n (Or.inr hname.symm)))
      · exact ih _ n (Or.inr ⟨row2, hrow3, hname⟩)

/-- Every canonical name of the input rows resolves, in the built lookup,
to its own entry — synonym insertions never shadow a canonical name. -/
theorem build_effect_lookup_canonical (rows : List CanonicalEffectRow)
    (n : PyStr) (h : ∃ row ∈ rows, row.name = n) :
    GoodKey (build_effect_lookup rows) n :=
  goodKey_build_aux rows [] n (Or.inr h)

/-- C4: a raw label whose normalized form equals a canonical effect name
resolves with `method="exact"` in the consumer mapper — even when the label
collides with a synonym of a different canonical effect — and in the
rule-based DB pipeline the exact stage fires before the synonym stage with
confidence 1.0 regardless of the synonym map. -/
theorem exact_match_precedence (rows : List CanonicalEffectRow)
    (fm : PyStr → List PyStr → Option PyStr) (name : PyStr)
    (hn : ∃ row ∈ rows, row.name = normalizeConsumerEffect name) :
    (∃ m, map_effect_name fm name (build_effect_lookup rows) = some m ∧
        m.method = "exact" ∧
        m.canonical_name = normalizeConsumerEffect name) ∧
      ∀ (cids : List (PyStr × Nat)) (smap : List (PyStr × PyStr)) (raw : PyStr)
        (i : Nat), raw.length ≤ 40 →
        plookup cids (pyStrip (pyLower raw)) = some i →
        classify_effect_rule_based cids smap raw =
          some ⟨some i, 1, "exact_match"⟩ := by
  constructor
  · obtain ⟨e, he, hce⟩ := build_effect_lookup_canonical rows _ hn
    refine ⟨⟨e.canonical_name, e.id, e.category, "exact"⟩, ?_, rfl, hce⟩
    unfold map_effect_name
    rw [he]
    dsimp only
    rw [if_pos hce]
  · intro cids smap raw i hlen hlook
    unfold classify_effect_rule_based
    rw [if_neg (by omega), hlook]

def happyRow : CanonicalEffectRow := ⟨1, [104, 97, 112, 112, 121], "positive", []⟩

theorem exact_match_precedence_witness :
    (∃ m, map_effect_name (fun _ _ => none) [72, 97, 112, 112, 121]
        (build_effect_lookup [happyRow]) = some m ∧ m.method = "exact" ∧
        m.canonical_name = normalizeConsumerEffect [72, 97, 112, 112, 121]) ∧
      ∀ (cids : List (PyStr × Nat)) (smap : List (PyStr × PyStr)) (raw : PyStr)
        (i : Nat), raw.length ≤ 40 →
        plookup cids (pyStrip (pyLower raw)) = some i →
        classify_effect_rule_based cids smap raw =
          some ⟨some i, 1, "exact_match"⟩ :=
  exact_match_precedence [happyRow] (fun _ _ => none) [72, 97, 112, 112, 121]
    (by decide)

/-- C5 (amended): the rule-based DB classifier applies the 40-character
length filter before its exact and synonym stages, writing
`(NULL, 0.0, length_filter)`; the consumer mapper applies no length filter
(see the counterexample). -/
theorem length_filter_first (cids : List (PyStr × Nat))
    (smap : List (PyStr × PyStr)) (raw : PyStr) (h : 40 < raw.length) :
    classify_effect_rule_based cids smap raw =
      some ⟨none, 0, "length_filter"⟩ := by
  unfold classify_effect_rule_based
  rw [if_pos h]

theorem length_filter_first_witness :
    40 < ([114, 101, 108, 97, 120, 101, 100] ++ List.replicate 38 32 : PyStr).length ∧
      classify_effect_rule_based [([114, 101, 108, 97, 120, 101, 100], 7)] []
        ([114, 101, 108, 97, 120, 101, 100] ++ List.replicate 38 32) =
        some ⟨none, 0, "length_filter"⟩ :=
  ⟨by decide, length_filter_first _ _ _ (by decide)⟩

def dryMouthPy : PyStr := [100, 114, 121, 45, 109, 111, 117, 116, 104]

def dryMouthRow : CanonicalEffectRow := ⟨1, dryMouthPy, "negative", []⟩

/-- A 45-character raw label (canonical name padded with whitespace). -/
def paddedDryMouth : PyStr := dryMouthPy ++ List.replicate 36 32

/-- C5 counterexample: the consumer mapper (`map_effect_name`, a cited stage
of the effect-resolution pipeline) classifies this 45-character raw label as
`method="exact"`, not `length_filter` — it has no length filter at all. -/
theorem map_effect_name_no_length_filter :
    paddedDryMouth.length = 45 ∧
      map_effect_name (fun _ _ => none) paddedDryMouth
        (build_effect_lookup [dryMouthRow]) =
        some ⟨dryMouthPy, 1, "negative", "exact"⟩ ∧
      "exact" ≠ "length_filter" :=
  ⟨by decide, by decide, by decide⟩

/-- C6 (amended): every method value a classifier writes into
`effect_mappings` is one of `length_filter`, `exact_match`, `synonym_match`,
`llm_junk`, `llm_glm-4.7`. -/
theorem effect_mapping_method_values (cids : List (PyStr × Nat))
    (smap : List (PyStr × PyStr)) (raw mv : PyStr) (m : EffectMapping)
    (h : classify_effect_rule_based cids smap raw = some m ∨
      classify_effect_llm cids mv = some m) :
    m.method = "length_filter" ∨ m.method = "exact_match" ∨
      m.method = "synonym_match" ∨ m.method = "llm_junk" ∨
      m.method = "llm_glm-4.7" := by
  rcases h with h | h
  · unfold classify_effect_rule_based at h
    split at h
    · injection h with h2
      subst h2
      exact Or.inl rfl
    · split at h
      · injection h with h2
        subst h2
        exact Or.inr (Or.inl rfl)
      · split at h
        · split at h
          · cases h
          · split at h
            · injection h with h2
              subst h2
              exact Or.inr (Or.inr (Or.inl rfl))
            · cases h
        · cases h
  · unfold classify_effect_llm at h
    split at h
    · injection h with h2
      subst h2
      exact Or.inr (Or.inr (Or.inr (Or.inl rfl)))
    · split at h
      · injection h with h2
        subst h2
        exact Or.inr (Or.inr (Or.inr (Or.inr rfl)))
      · cases h

def relaxedPy : PyStr := [114, 101, 108, 97, 120, 101, 100]

theorem effect_mapping_method_values_witness :
    ((⟨some 7, 1, "exact_match"⟩ : EffectMapping).method = "length_filter" ∨
      (⟨some 7, 1, "exact_match"⟩ : EffectMapping).method = "exact_match" ∨
      (⟨some 7, 1, "exact_match"⟩ : EffectMapping).method = "synonym_match" ∨
      (⟨some 7, 1, "exact_match"⟩ : EffectMapping).method = "llm_junk" ∨
      (⟨some 7, 1, "exact_match"⟩ : EffectMapping).method = "llm_glm-4.7") :=
  effect_mapping_method_values [(relaxedPy, 7)] [] relaxedPy junkMarker
    ⟨some 7, 1, "exact_match"⟩ (Or.inl (by decide))

/-- C6 counterexample: the exact stage writes the method string
`exact_match`, which is not among the seven values the claim lists. -/
theorem effect_mapping_method_outside_claimed :
    classify_effect_rule_based [(relaxedPy, 7)] [] relaxedPy =
        some ⟨some 7, 1, "exact_match"⟩ ∧
      "exact_match" ∉ (["exact", "synonym", "fuzzy", "length_filter", "llm",
        "llm_junk", "unmapped"] : List String) :=
  ⟨by decide, by decide⟩

end Cannalchemy
